import Mathlib

/-!
Verification development for the `path` library: the Path value type
(component decomposition and recomposition, relative-path computation),
the depth-first directory walker with pluggable error policy, and the
symbolic permission-mask compiler (`path/masks.py`).

Paths are modelled as lists of characters (`Str`).  The path dialect
("path module") operations that the library delegates to — `split`,
`join`, `splitext`, `normcase` — are embedded from the POSIX dialect
(CPython's `posixpath`), which is the concrete collaborator the library
runs with on POSIX hosts; relative-path computation is additionally
parameterised over an abstract dialect record so that statements about
case normalization cover the Windows dialect as well.
-/

/-- Character-list representation of a Python string. -/
abbrev Str := List Char

/-- Convert a literal to the character-list representation. -/
def str (s : String) : Str := s.data

/-- The `os.curdir` sentinel `'.'`. -/
def curdir : Str := str "."

/-- The `os.pardir` sentinel `'..'`. -/
def pardir : Str := str ".."

/-- Python's `x.rstrip('/')`: remove every trailing separator. -/
def rstripSep (x : Str) : Str := (x.reverse.dropWhile (fun c => c = '/')).reverse

/-- Embeds `posixpath.split(p)`: `tail` is everything after the final
slash (`p[i:]` with `i = p.rfind('/') + 1`) and `head` is the part
before it, stripped of trailing slashes unless it is empty or consists
only of slashes (Python's `if head and head != sep * len(head)`). -/
def posix_split (p : Str) : Str × Str :=
  let r := p.reverse
  let tail := (r.takeWhile (fun c => c ≠ '/')).reverse
  let rawHead := (r.dropWhile (fun c => c ≠ '/')).reverse
  let head := if rawHead.any (fun c => c ≠ '/') then rstripSep rawHead else rawHead
  (head, tail)

/-- Embeds `posixpath.join(first, *rest)`: each later component replaces
the accumulated path when it is absolute, otherwise it is appended,
inserting a separator unless the accumulated path is empty or already
ends with one. -/
def posix_join (first : Str) (rest : List Str) : Str :=
  rest.foldl
    (fun path b =>
      if b.head? = some '/' then b
      else if path = [] ∨ path.getLast? = some '/' then path ++ b
      else path ++ '/' :: b)
    first

/-- One `posixpath.join` step, joining a single extra component. -/
def joinStep (path b : Str) : Str :=
  if b.head? = some '/' then b
  else if path = [] ∨ path.getLast? = some '/' then path ++ b
  else path ++ '/' :: b

/-- Embeds `Path.__div__` / the `self / child` operation: a two-argument
`posixpath.join`. -/
def joinTwo (a b : Str) : Str := posix_join a [b]

/-- Index of the last occurrence of `c` in `p`, or `-1` (Python `str.rfind`). -/
def rfindI (c : Char) (p : Str) : Int :=
  match p.reverse.findIdx? (fun x => x = c) with
  | some k => (p.length : Int) - 1 - k
  | none => -1

/-- Embeds `posixpath.splitext(p)` (CPython `genericpath._splitext` with
`sep = '/'`, no `altsep`, `extsep = '.'`): split at the last dot of the
final segment unless the final segment consists only of leading dots up
to that position. -/
def posix_splitext (p : Str) : Str × Str :=
  let sepIndex := rfindI '/' p
  let dotIndex := rfindI '.' p
  if sepIndex < dotIndex then
    -- the while loop scans p[sepIndex+1 : dotIndex] for a non-dot character
    let fname := (p.drop (sepIndex + 1).toNat).take (dotIndex - sepIndex - 1).toNat
    if fname.any (fun c => c ≠ '.') then (p.take dotIndex.toNat, p.drop dotIndex.toNat)
    else (p, [])
  else (p, [])

/-- Embeds `posixpath.normcase`, the identity on POSIX. -/
def posix_normcase (p : Str) : Str := p

/-- A path dialect ("path module") strategy record: the syntactic
operations `Path` delegates to through `self.module`. -/
structure PathModule where
  normcase : Str → Str
  split : Str → Str × Str
  join1 : Str → List Str → Str

/-- The POSIX dialect, assembled from the `posixpath` embeddings. -/
def posixModule : PathModule :=
  { normcase := posix_normcase, split := posix_split, join1 := posix_join }

/-- Embeds the loop body of `Path._parts_iter` for dialect `M`: repeatedly
split off the final component, yielding children innermost-first, until
the location is `os.curdir`, `os.pardir`, or `split` returns it unchanged.
The fuel argument dominates the loop's iteration count (the source loop
terminates because `split` shortens its argument whenever it changes it). -/
def parts_iterM (M : PathModule) : Nat → Str → List Str
  | 0, loc => [loc]
  | fuel + 1, loc =>
    if loc = curdir ∨ loc = pardir then [loc]
    else
      let hd := (M.split loc).1
      let tl := (M.split loc).2
      if hd = loc then [loc] else tl :: parts_iterM M fuel hd

/-- Embeds `Path.splitall` / `Path.parts` for dialect `M`: the reversed
yield order of `_parts_iter`. -/
def splitallM (M : PathModule) (p : Str) : List Str :=
  (parts_iterM M (p.length + 1) p).reverse

/-- `Path.splitall` over the POSIX dialect. -/
def splitall (p : Str) : List Str := splitallM posixModule p

/-- Embeds `Path.joinpath(first, *others)`: `module.join` over the given
components; with no components at all the multimethod raises
("nothing to join"), modelled as `none`. -/
def joinpath : List Str → Option Str
  | [] => none
  | f :: r => some (posix_join f r)

/-- Embeds `Path.suffix`: the extension part of `module.splitext`. -/
def suffix (p : Str) : Str := (posix_splitext p).2

/-- Embeds `Path.stripext`: the stem part of `module.splitext`. -/
def stripext (p : Str) : Str := (posix_splitext p).1

/-- Embeds `Path.name` / `Path.basename`: the tail of `module.split`. -/
def posix_basename (p : Str) : Str := (posix_split p).2

example : posix_split (str "/foo/bar") = (str "/foo", str "bar") := by decide
example : posix_split (str "foo//bar") = (str "foo", str "bar") := by decide
example : splitall (str "/foo/bar/baz") = [str "/", str "foo", str "bar", str "baz"] := by
  decide
example : splitall (str "foo//bar") = [str "", str "foo", str "bar"] := by decide
example : joinpath (splitall (str "/foo/bar/baz")) = some (str "/foo/bar/baz") := by decide
example : posix_splitext (str "/home/a.tar.gz") = (str "/home/a.tar", str ".gz") := by decide
example : posix_splitext (str "/home/.bashrc") = (str "/home/.bashrc", str "") := by decide

/-- C9: for every path `p`, `p.stripext() + p.suffix == p` as strings:
both come from `module.splitext`, which either cuts `p` at the last dot
of its final segment or returns `(p, '')`. -/
theorem stripext_append_suffix (p : Str) : stripext p ++ suffix p = p := by
  unfold stripext suffix posix_splitext
  dsimp only
  split_ifs <;> simp [List.take_append_drop]

/-! ## Symbolic permission-mask compiler (`path/masks.py`) -/

/-- Character class `[ugoa]` of the clause regex. -/
def isWhoChar (c : Char) : Bool := c = 'u' || c = 'g' || c = 'o' || c = 'a'

/-- Character class `[-+=]` of the clause regex. -/
def isOpChar (c : Char) : Bool := c = '+' || c = '-' || c = '='

/-- Character class `[rwx]` of the clause regex. -/
def isPermChar (c : Char) : Bool := c = 'r' || c = 'w' || c = 'x'

/-- A parsed symbolic clause: the named groups of
`(?P<who>[ugoa]+)(?P<op>[-+=])(?P<what>[rwx]*)$`. -/
structure Clause where
  who : Str
  op : Char
  what : Str
deriving DecidableEq

/-- Embeds the regex match in `masks.simple`: the character classes are
disjoint, so the greedy match is a `takeWhile`, then one operator
character, then permission characters up to the end of the string. -/
def parseClause (mode : Str) : Option Clause :=
  let who := mode.takeWhile isWhoChar
  match mode.dropWhile isWhoChar with
  | op :: what =>
    if who ≠ [] ∧ isOpChar op = true ∧ what.all isPermChar = true then
      some ⟨who, op, what⟩
    else none
  | [] => none

/-- The `spec_map` of `masks.simple`: `r=4, w=2, x=1` (only applied to
`rwx` characters). -/
def specMap (c : Char) : Nat := if c = 'r' then 4 else if c = 'w' then 2 else 1

/-- The `shift_map` of `masks.simple`: `u→6, g→3, o→0` (only applied to
`ugo` characters after expansion). -/
def shiftMap (c : Char) : Nat := if c = 'u' then 6 else if c = 'g' then 3 else 0

/-- Embeds `who.replace('a', 'ugo')`. -/
def expandWho (who : Str) : Str := who.flatMap (fun c => if c = 'a' then str "ugo" else [c])

/-- Embeds `masks.simple`: compile one symbolic clause into a
mask-applying function, or fail (`ValueError`) on a malformed clause.
The source's `reduce(operator.or_, ...)` over the nonempty sequences is
written as a fold with identity element `0`. -/
def simple (mode : Str) : Option (Nat → Nat) :=
  match parseClause mode with
  | none => none
  | some cl =>
    let spec := cl.what.foldl (fun a c => a ||| specMap c) 0
    let whoX := expandWho cl.who
    let mask := whoX.foldl (fun a c => a ||| (spec <<< shiftMap c)) 0
    if cl.op = '-' then
      -- op '-' inverts the mask, then ANDs it onto the target
      some (fun target => (mask ^^^ 0o777) &&& target)
    else if cl.op = '=' then
      -- op '=' retains extant bits of unreferenced subjects
      let retain := (whoX.foldl (fun a c => a ||| ((7 : Nat) <<< shiftMap c)) 0) ^^^ 0o777
      some (fun target => (target &&& retain) ^^^ mask)
    else
      some (fun target => mask ||| target)

/-- Python's `mode.split(',')`. -/
def splitComma : Str → List Str
  | [] => [[]]
  | c :: t =>
    if c = ',' then [] :: splitComma t
    else
      match splitComma t with
      | h :: r => (c :: h) :: r
      | [] => [c] :: []

/-- Embeds `masks.compound`: `compose(*map(simple, reversed(mode.split(','))))`,
where `compose` is the left fold of two-function composition
`f1(f2(*args))`; fails if any clause fails to compile. -/
def compound (s : Str) : Option (Nat → Nat) :=
  match ((splitComma s).reverse).mapM simple with
  | none => none
  | some [] => none
  | some (f :: fs) => some (fs.foldl (fun acc g => fun m => acc (g m)) f)

/-- The referenced-subject bits of a clause: OR of `0o7` shifted into
place for each expanded `who` subject (the source's `retain` ingredient). -/
def whoBits (who : Str) : Nat :=
  (expandWho who).foldl (fun a c => a ||| ((7 : Nat) <<< shiftMap c)) 0

/-- The spec value of a clause: the 3-bit permission spec shifted into
place for each expanded `who` subject (the source's `mask` for `+`/`=`). -/
def specBits (who what : Str) : Nat :=
  let spec := what.foldl (fun a c => a ||| specMap c) 0
  (expandWho who).foldl (fun a c => a ||| (spec <<< shiftMap c)) 0

/-- Left-to-right clause application: each clause of the comma-separated
list applied to the output of the previous one, first clause first. -/
def applyClausesLTR (cs : List Str) (m : Nat) : Nat :=
  cs.foldl (fun acc c => ((simple c).getD id) acc) m

example : (compound (str "a=r,u+w")).map (fun f => f 0) = some 0o644 := by decide
example : (compound (str "go-x")).map (fun f => f 0o777) = some 0o766 := by decide
example : (compound (str "u=x")).map (fun f => f 0o666) = some 0o166 := by decide
example : (simple (str "gobbledeegook")).isNone = true := by decide
example : (simple (str "g=")).map (fun f => f 0o157) = some 0o107 := by decide

/-- Disjoint bit patterns make XOR agree with OR. -/
theorem xor_eq_or_of_and_eq_zero (x y : Nat) (h : x &&& y = 0) : x ^^^ y = x ||| y := by
  apply Nat.eq_of_testBit_eq
  intro i
  have hb : (x &&& y).testBit i = false := by rw [h]; exact Nat.zero_testBit i
  rw [Nat.testBit_and] at hb
  rw [Nat.testBit_xor, Nat.testBit_or]
  cases hx : x.testBit i <;> cases hy : y.testBit i <;> simp_all

/-- An OR-fold stays below a power of two when every operand does. -/
theorem foldl_or_lt (n : Nat) (f : Char → Nat) (hf : ∀ c, f c < 2 ^ n) :
    ∀ (l : List Char) (a : Nat), a < 2 ^ n →
      l.foldl (fun x c => x ||| f c) a < 2 ^ n := by
  intro l
  induction l with
  | nil => intro a ha; exact ha
  | cons c t ih =>
    intro a ha
    exact ih (a ||| f c) (Nat.or_lt_two_pow ha (hf c))

/-- Bits set by an OR-fold are bounded by the bits of a pointwise-larger
OR-fold over the same list. -/
theorem foldl_or_testBit_mono (f g : Char → Nat)
    (hfg : ∀ c i, (f c).testBit i = true → (g c).testBit i = true) :
    ∀ (l : List Char) (a b : Nat),
      (∀ i, a.testBit i = true → b.testBit i = true) →
      ∀ i, (l.foldl (fun x c => x ||| f c) a).testBit i = true →
        (l.foldl (fun x c => x ||| g c) b).testBit i = true := by
  intro l
  induction l with
  | nil => intro a b hab i h; exact hab i h
  | cons c t ih =>
    intro a b hab i h
    simp only [List.foldl_cons] at h ⊢
    refine ih (a ||| f c) (b ||| g c) (fun j hj => ?_) i h
    simp only [Nat.testBit_or, Bool.or_eq_true] at hj ⊢
    rcases hj with h1 | h1
    · exact Or.inl (hab j h1)
    · exact Or.inr (hfg c j h1)

/-- Every bit of the spec value of a clause is a referenced-subject bit. -/
theorem specBits_le_whoBits (who what : Str) (i : Nat)
    (h : (specBits who what).testBit i = true) : (whoBits who).testBit i = true := by
  have hspec : what.foldl (fun a c => a ||| specMap c) 0 < 2 ^ 3 := by
    refine foldl_or_lt 3 _ (fun c => ?_) what 0 (by decide)
    unfold specMap
    split_ifs <;> decide
  unfold specBits at h
  unfold whoBits
  refine foldl_or_testBit_mono _ _ (fun c j hj => ?_) (expandWho who) 0 0
    (fun j hj => hj) i h
  rw [Nat.testBit_shiftLeft] at hj ⊢
  simp only [Bool.and_eq_true, decide_eq_true_eq] at hj ⊢
  refine ⟨hj.1, ?_⟩
  have hlt : j - shiftMap c < 3 := by
    by_contra hge
    have : (what.foldl (fun a c => a ||| specMap c) 0).testBit (j - shiftMap c) = false :=
      Nat.testBit_lt_two_pow
        (lt_of_lt_of_le hspec (Nat.pow_le_pow_right (by decide) (Nat.le_of_not_lt hge)))
    rw [this] at hj
    exact absurd hj.2 (by decide)
  have h7 : (7 : Nat) = 2 ^ 3 - 1 := by decide
  rw [h7, Nat.testBit_two_pow_sub_one]
  simpa using hlt

/-- The referenced-subject bits fit in nine bits. -/
theorem whoBits_lt (who : Str) : whoBits who < 2 ^ 9 := by
  unfold whoBits
  refine foldl_or_lt 9 _ (fun c => ?_) (expandWho who) 0 (by decide)
  unfold shiftMap
  split_ifs <;> decide

/-- The retained part of a mode is disjoint from the spec value. -/
theorem retain_and_specBits (m : Nat) (who what : Str) :
    (m &&& (0o777 ^^^ whoBits who)) &&& specBits who what = 0 := by
  apply Nat.eq_of_testBit_eq
  intro i
  simp only [Nat.testBit_and, Nat.testBit_xor, Nat.zero_testBit]
  by_cases hs : (specBits who what).testBit i = true
  · have hw := specBits_le_whoBits who what i hs
    have hi9 : i < 9 := by
      by_contra h9
      have : (whoBits who).testBit i = false :=
        Nat.testBit_lt_two_pow
          (lt_of_lt_of_le (whoBits_lt who) (Nat.pow_le_pow_right (by decide) (Nat.le_of_not_lt h9)))
      rw [this] at hw
      exact absurd hw (by decide)
    have h777 : (0o777 : Nat).testBit i = true := by
      have : (0o777 : Nat) = 2 ^ 9 - 1 := by decide
      rw [this, Nat.testBit_two_pow_sub_one]
      simpa using hi9
    rw [hw, h777]
    simp
  · simp only [Bool.not_eq_true] at hs
    rw [hs]
    simp

/-- C6: a valid `=` clause compiled by `masks.simple` maps a 9-bit mode
`m` to `(m AND complement-of-referenced-subject-bits) OR spec`, so
referenced subjects are reset to exactly the spec and unreferenced
subjects keep their prior bits; and in particular the compiled
`'a=r,u+w'` maps `0` to `0o644` and the compiled `'u=x'` maps `0o666`
to `0o166`. -/
theorem simple_eq_resets_referenced_subjects
    (mode : Str) (cl : Clause) (m : Nat)
    (hp : parseClause mode = some cl) (hop : cl.op = '=') (hm : m < 512) :
    (∃ f, simple mode = some f ∧
        f m = ((m &&& (0o777 ^^^ whoBits cl.who)) ||| specBits cl.who cl.what))
      ∧ (compound (str "a=r,u+w")).map (fun f => f 0) = some 0o644
      ∧ (compound (str "u=x")).map (fun f => f 0o666) = some 0o166 := by
  refine ⟨?_, by decide, by decide⟩
  rcases cl with ⟨who, op, what⟩
  simp only at hop
  subst hop
  unfold simple
  rw [hp]
  dsimp only
  rw [if_neg (by decide), if_pos rfl]
  refine ⟨_, rfl, ?_⟩
  show (m &&& (whoBits who ^^^ 0o777)) ^^^ specBits who what
      = (m &&& (0o777 ^^^ whoBits who)) ||| specBits who what
  rw [Nat.xor_comm (whoBits who) 0o777]
  exact xor_eq_or_of_and_eq_zero _ _ (retain_and_specBits m who what)

/-- Witness for the `=` clause semantics at `mode = 'u=x'`, `m = 0o666`. -/
theorem simple_eq_resets_referenced_subjects_witness :
    parseClause (str "u=x") = some ⟨str "u", '=', str "x"⟩ ∧ (0o666 : Nat) < 512 ∧
      ((∃ f, simple (str "u=x") = some f ∧
          f 0o666 = ((0o666 &&& (0o777 ^^^ whoBits (str "u"))) ||| specBits (str "u") (str "x")))
        ∧ (compound (str "a=r,u+w")).map (fun f => f 0) = some 0o644
        ∧ (compound (str "u=x")).map (fun f => f 0o666) = some 0o166) :=
  ⟨by decide, by decide,
    simple_eq_resets_referenced_subjects (str "u=x") ⟨str "u", '=', str "x"⟩ 0o666
      (by decide) rfl (by decide)⟩

/-- Python's `str.split` never returns an empty list. -/
theorem splitComma_ne_nil (s : Str) : splitComma s ≠ [] := by
  induction s with
  | nil => simp [splitComma]
  | cons c t ih =>
    unfold splitComma
    by_cases hc : c = ','
    · simp [hc]
    · simp only [hc, if_false]
      cases h : splitComma t with
      | nil => simp
      | cons h' r => simp

/-- When every element compiles, `mapM simple` returns the list of
compiled functions. -/
theorem mapM_simple_some :
    ∀ l : List Str, (∀ c ∈ l, (simple c).isSome = true) →
      l.mapM simple = some (l.map (fun c => (simple c).getD id)) := by
  intro l
  induction l with
  | nil => intro _; rfl
  | cons c t ih =>
    intro h
    have hc := h c (List.mem_cons_self c t)
    obtain ⟨f, hf⟩ := Option.isSome_iff_exists.mp hc
    rw [List.mapM_cons, hf, ih (fun d hd => h d (List.mem_cons_of_mem c hd))]
    simp [hf]

/-- Applying a left fold of two-function composition is applying the
functions right to left. -/
theorem foldl_comp_apply :
    ∀ (gs : List (Nat → Nat)) (f : Nat → Nat) (m : Nat),
      (gs.foldl (fun acc g => fun x => acc (g x)) f) m
        = f (gs.foldr (fun g acc => g acc) m) := by
  intro gs
  induction gs with
  | nil => intro f m; rfl
  | cons g t ih => intro f m; rw [List.foldl_cons, ih]; rfl

/-- C7: for a comma-separated mode string whose clauses all compile,
the compiled compound function applies the clauses in the order
written, the leftmost clause's effect first: `masks.compound` reverses
the clause list and composes, which is exactly a left fold of clause
application over the original order. -/
theorem compound_applies_first_clause_first (s : Str) (m : Nat)
    (h : ∀ c ∈ splitComma s, (simple c).isSome = true) :
    (compound s).map (fun f => f m) = some (applyClausesLTR (splitComma s) m) := by
  unfold compound
  have h' : ∀ c ∈ (splitComma s).reverse, (simple c).isSome = true :=
    fun c hc => h c (List.mem_reverse.mp hc)
  rw [mapM_simple_some _ h']
  cases hrev : (splitComma s).reverse with
  | nil => exact absurd (List.reverse_eq_nil_iff.mp hrev) (splitComma_ne_nil s)
  | cons c0 cr =>
    simp only [List.map_cons, Option.map_some']
    congr 1
    rw [foldl_comp_apply]
    have step1 :
        (simple c0).getD id
            (((cr.map (fun c => (simple c).getD id))).foldr (fun g acc => g acc) m)
          = ((c0 :: cr).map (fun c => (simple c).getD id)).foldr (fun g acc => g acc) m := rfl
    rw [step1, ← hrev, List.map_reverse, List.foldr_reverse, List.foldl_map]
    rfl

/-- Witness for left-to-right compound application at `'go-x,u+w'`, `m = 0o777`. -/
theorem compound_applies_first_clause_first_witness :
    (∀ c ∈ splitComma (str "go-x,u+w"), (simple c).isSome = true) ∧
      (compound (str "go-x,u+w")).map (fun f => f 0o777)
        = some (applyClausesLTR (splitComma (str "go-x,u+w")) 0o777) :=
  ⟨by decide, compound_applies_first_clause_first (str "go-x,u+w") 0o777 (by decide)⟩

/-! ## Relative-path computation (`Path.relpathto`) -/

/-- The matching-prefix scan of `Path.relpathto`: the number of initial
pairs with `start_seg == self.module.normcase(dest_seg)`. -/
def matchLen (M : PathModule) : List Str → List Str → Nat
  | o :: os, d :: ds => if o = M.normcase d then matchLen M os ds + 1 else 0
  | _, _ => 0

/-- Embeds `Path.relpathto` for dialect `M`, applied to the two already
absolutized paths (`origin = self.absolute()` and
`dest_path = Path(dest).absolute()` are produced by the external
`os.path.abspath` collaborator before this algorithm runs): case-normalize
the origin as a whole, split both into components, fall back to `dest`'s
absolute form when the first components differ, otherwise climb with one
`os.pardir` per leftover origin component and append `dest`'s
non-normalized diverging suffix; identical paths give `os.curdir`. -/
def relpathto (M : PathModule) (originAbs destAbs : Str) : Str :=
  let orig_list := splitallM M (M.normcase originAbs)
  let dest_list := splitallM M destAbs
  if orig_list.headD [] ≠ M.normcase (dest_list.headD []) then destAbs
  else
    let i := matchLen M orig_list dest_list
    let segments := List.replicate (orig_list.length - i) pardir ++ dest_list.drop i
    match segments with
    | [] => curdir
    | s :: rest => M.join1 s rest

/-- The `_parts_iter` loop always yields at least one component. -/
theorem parts_iterM_ne_nil (M : PathModule) :
    ∀ (fuel : Nat) (loc : Str), parts_iterM M fuel loc ≠ [] := by
  intro fuel
  induction fuel with
  | zero => intro loc; simp [parts_iterM]
  | succ n ih =>
    intro loc
    unfold parts_iterM
    dsimp only
    split_ifs <;> simp

/-- `splitall` always returns at least one component. -/
theorem splitallM_ne_nil (M : PathModule) (p : Str) : splitallM M p ≠ [] := by
  unfold splitallM
  simp [parts_iterM_ne_nil]

/-- Normalizing every component of a list matches the list itself
pairwise, for its full length. -/
theorem matchLen_map_normcase (M : PathModule) :
    ∀ L : List Str, matchLen M (L.map M.normcase) L = L.length := by
  intro L
  induction L with
  | nil => rfl
  | cons x t ih => simp [matchLen, ih]

/-- C3: when the first components of the two absolute forms differ under
case normalization (`orig_list[0] != self.module.normcase(dest_list[0])`,
e.g. different drive letters on the Windows dialect), `relpathto`
returns `dest`'s absolute form unchanged.  The hypothesis `hc` states
that case-normalizing the origin commutes with taking its first
component, which holds definitionally for dialects like POSIX whose
`normcase` is the identity. -/
theorem relpathto_divergent_roots (M : PathModule) (A B : Str)
    (hc : (splitallM M (M.normcase A)).headD [] = M.normcase ((splitallM M A).headD []))
    (hd : M.normcase ((splitallM M A).headD []) ≠ M.normcase ((splitallM M B).headD [])) :
    relpathto M A B = B := by
  unfold relpathto
  dsimp only
  rw [if_pos (fun h => hd (hc.symm.trans h))]

/-- Witness for the divergent-root fallback on the POSIX dialect at
`A = '/a/x'` (first component `'/'`), `B = 'b'` (first component `''`). -/
theorem relpathto_divergent_roots_witness :
    (splitallM posixModule (posixModule.normcase (str "/a/x"))).headD []
        = posixModule.normcase ((splitallM posixModule (str "/a/x")).headD []) ∧
      posixModule.normcase ((splitallM posixModule (str "/a/x")).headD [])
        ≠ posixModule.normcase ((splitallM posixModule (str "b")).headD []) ∧
      relpathto posixModule (str "/a/x") (str "b") = str "b" :=
  ⟨by decide, by decide,
    relpathto_divergent_roots posixModule (str "/a/x") (str "b") (by decide) (by decide)⟩

/-- C4: `a.relpathto(a)` is the `os.curdir` sentinel, not the empty
string.  The hypothesis asks that case-normalizing the whole absolute
form splits into the componentwise case normalization — the sense in
which the result is independent of case-normalization differences
between the two equal absolute forms; every component of the normalized
origin then matches the corresponding dest component, no `os.pardir`
steps remain, and the empty segment list is mapped to `os.curdir`. -/
theorem relpathto_self (M : PathModule) (A : Str)
    (h : splitallM M (M.normcase A) = (splitallM M A).map M.normcase) :
    relpathto M A A = curdir := by
  unfold relpathto
  dsimp only
  rw [h]
  obtain ⟨x, t, hL⟩ : ∃ x t, splitallM M A = x :: t := by
    cases hh : splitallM M A with
    | nil => exact absurd hh (splitallM_ne_nil M A)
    | cons x t => exact ⟨x, t, rfl⟩
  rw [hL]
  rw [if_neg (by simp)]
  rw [matchLen_map_normcase]
  simp only [List.length_map, Nat.sub_self, List.replicate_zero, List.drop_length,
    List.nil_append]

/-- Witness for `relpathto_self` on the POSIX dialect at `/Foo/Bar`. -/
theorem relpathto_self_witness :
    splitallM posixModule (posixModule.normcase (str "/Foo/Bar"))
        = (splitallM posixModule (str "/Foo/Bar")).map posixModule.normcase ∧
      relpathto posixModule (str "/Foo/Bar") (str "/Foo/Bar") = curdir :=
  ⟨by decide, relpathto_self posixModule (str "/Foo/Bar") (by decide)⟩

/-! ## Directory walker (`Path.walk` and `Handlers`)

The filesystem is modelled as a finite tree handed to the walker through
the two external collaborators `os.listdir` (directory enumeration) and
`Path.is_dir` (the default descent decision).  Besides plain files and
listable directories the model has two damaged-node kinds: a directory
whose listing raises, and a node whose `is_dir()` call raises — the two
per-node failure points of the walk loop.  The walk's caller never sends
a descent override (`traverse = yield child` receives `None`), so the
decision is always `child.is_dir`, as in a plain `for` loop over the
generator. -/

mutual

/-- A filesystem node as seen by the walker's collaborators. -/
inductive Node where
  | file : Node
  | dir (children : Entries) : Node
  | badList (children : Entries) : Node
  | badStat : Node
deriving DecidableEq

/-- The named children of a directory, in listing order. -/
inductive Entries where
  | nil : Entries
  | cons (name : Str) (node : Node) (rest : Entries) : Entries
deriving DecidableEq

end

/-- Concatenation of child listings. -/
def Entries.app : Entries → Entries → Entries
  | .nil, e => e
  | .cons n c r, e => .cons n c (r.app e)

/-- A resolved error-policy handler (`Handlers.strict` / `warn` / `ignore`). -/
inductive Handler where
  | strict : Handler
  | warn : Handler
  | ignore : Handler
deriving DecidableEq

/-- The Python exceptions relevant to walking: `ValueError` (bad
`errors=` parameter), `KeyError` (failed policy-table lookup), and
`OSError` (failures raised by the listing / stat collaborators). -/
inductive PyErr where
  | valueError (msg : String) : PyErr
  | keyError : PyErr
  | osError (msg : String) : PyErr
deriving DecidableEq

/-- The value passed as `errors=`: a string, a callable (here: one of
the resolved handlers, as passed by the recursive call `child.walk(
errors=error_fn)`), or a non-callable non-string value. -/
inductive ErrorsParam where
  | policy (s : String) : ErrorsParam
  | fn (h : Handler) : ErrorsParam
  | nonCallable : ErrorsParam

/-- The attribute names of the `Handlers` class body — the keys of
`vars(Handlers)` that Python's membership test consults: the three
policy methods, `_resolve` itself, and the implicit class attributes. -/
def handlersClassDict : List String :=
  ["__module__", "__qualname__", "__doc__", "strict", "warn", "ignore",
    "_resolve", "__dict__", "__weakref__"]

/-- Embeds `Handlers._resolve`: a string not in `vars(Handlers)` raises
`ValueError("invalid errors parameter")`; a string in `vars(Handlers)`
is looked up in the literal `{"strict": ..., "warn": ..., "ignore": ...}`
table, raising `KeyError` when absent there; a callable is returned
as-is; anything else raises the same `ValueError`. -/
def Handlers_resolve : ErrorsParam → Except PyErr Handler
  | .policy s =>
    if s ∈ handlersClassDict then
      if s = "strict" then .ok .strict
      else if s = "warn" then .ok .warn
      else if s = "ignore" then .ok .ignore
      else .error .keyError
    else .error (.valueError "invalid errors parameter")
  | .fn h => .ok h
  | .nonCallable => .error (.valueError "invalid errors parameter")

/-- Whether the handler re-raises the exception it is invoked on:
`Handlers.strict` does (`raise`), `warn` and `ignore` return normally. -/
def propagates : Handler → Bool
  | .strict => true
  | _ => false

/-- The `child.is_dir` collaborator: `False` for a file, `True` for
directories (listable or not), raising (`OSError`) on a `badStat` node. -/
def isDirE : Node → Except PyErr Bool
  | .file => .ok false
  | .dir _ => .ok true
  | .badList _ => .ok true
  | .badStat => .error (.osError "stat failed")

mutual

/-- Embeds the generator body of `Path.walk` (with the `errors`
parameter already resolved): list the children (a failed listing is
reported to the handler and ends this call's contribution), then for
each child yield it if it matches, evaluate the descent decision
(a failure is reported to the handler and skips to the next sibling),
and re-yield the recursive walk of the child when the decision is true.
The result is the yielded paths paired with the exception, if any, that
escaped the generator (everything yielded before it is kept, as a
driving `for` loop would have received those items already). -/
def walk (m : Str → Bool) (h : Handler) (path : Str) : Node → List Str × Option PyErr
  | .dir cs => walkEntries m h path cs
  | _ =>
    -- `self.iterdir()` raises (unlistable directory, or not a directory)
    if propagates h then ([], some (.osError "cannot list directory")) else ([], none)

/-- The `for child in childList` loop of `Path.walk`. -/
def walkEntries (m : Str → Bool) (h : Handler) (path : Str) :
    Entries → List Str × Option PyErr
  | .nil => ([], none)
  | .cons name c rest =>
    let child := joinTwo path name
    let yielded := if m child then [child] else []
    match isDirE c with
    | .error e =>
      -- `traverse()` raised: handler, then `continue`
      if propagates h then (yielded, some e)
      else
        let r := walkEntries m h path rest
        (yielded ++ r.1, r.2)
    | .ok b =>
      if b then
        let sub := walk m h child c
        match sub.2 with
        | some e => (yielded ++ sub.1, some e)
        | none =>
          let r := walkEntries m h path rest
          (yielded ++ sub.1 ++ r.1, r.2)
      else
        let r := walkEntries m h path rest
        (yielded ++ r.1, r.2)

end

/-- Embeds a full `Path.walk(match, errors)` call driven to exhaustion:
`Handlers._resolve(errors)` runs first (its failure escapes before any
listing), then the walk proper. -/
def walkCall (errors : ErrorsParam) (m : Str → Bool) (path : Str) (n : Node) :
    List Str × Option PyErr :=
  match Handlers_resolve errors with
  | .error e => ([], some e)
  | .ok h => walk m h path n

/-- Embeds `matchers.load(None)`: the `Null` matcher accepts everything. -/
def matcherNull : Str → Bool := fun _ => true

/-- Embeds `matchers.Pattern.__call__` for a pattern predicate `pp`
standing for `fnmatch.fnmatchcase(normcase(·), normcase(pattern))`: the
pattern is tested against `path.name`, the basename of the yielded
child, not against the whole path. -/
def matcherPattern (pp : Str → Bool) : Str → Bool := fun p => pp (posix_basename p)

mutual

/-- Whether a tree contains only plain files and listable directories. -/
def goodNode : Node → Bool
  | .file => true
  | .dir cs => goodEntries cs
  | _ => false

/-- Whether all children of a listing are good. -/
def goodEntries : Entries → Bool
  | .nil => true
  | .cons _ c rest => goodNode c && goodEntries rest

end

mutual

/-- Whether every name in the tree is a legal directory-entry name:
nonempty and free of the separator character. -/
def namesOkNode : Node → Bool
  | .dir cs => namesOkEntries cs
  | _ => true

/-- Whether every name in a listing subtree is legal. -/
def namesOkEntries : Entries → Bool
  | .nil => true
  | .cons name c rest =>
    (!name.isEmpty && name.all (fun ch => ch ≠ '/')) && namesOkNode c && namesOkEntries rest

end

mutual

/-- Depth-first pre-order of the yielded items of a walk from `path`
over a tree, with match predicate `m` on the yielded child path: each
matched child appears immediately before the items of its own subtree,
which precede any later sibling. -/
def preorderM (m : Str → Bool) (path : Str) : Node → List Str
  | .dir cs => preorderEM m path cs
  | _ => []

/-- Depth-first pre-order over a child listing. -/
def preorderEM (m : Str → Bool) (path : Str) : Entries → List Str
  | .nil => []
  | .cons name c rest =>
    let child := joinTwo path name
    (if m child then [child] else []) ++ preorderM m child c ++ preorderEM m path rest

end

/-- Depth-first pre-order of every item (no match filter). -/
def preorder (path : Str) (n : Node) : List Str := preorderM matcherNull path n

mutual

/-- Depth-first pre-order filtered by a predicate `pp` on entry names:
an entry whose name fails `pp` is omitted but its subtree is still
visited. -/
def preorderByName (pp : Str → Bool) (path : Str) : Node → List Str
  | .dir cs => preorderByNameE pp path cs
  | _ => []

/-- Name-filtered depth-first pre-order over a child listing. -/
def preorderByNameE (pp : Str → Bool) (path : Str) : Entries → List Str
  | .nil => []
  | .cons name c rest =>
    let child := joinTwo path name
    (if pp name then [child] else []) ++ preorderByName pp child c ++ preorderByNameE pp path rest

end

/-- Over a listing whose subtrees contain only plain files and listable
directories, the walk loop yields exactly the match-filtered depth-first
pre-order and raises nothing, for every handler. -/
theorem walkEntries_good (m : Str → Bool) (h : Handler) :
    (path : Str) → (cs : Entries) → goodEntries cs = true →
      walkEntries m h path cs = (preorderEM m path cs, none)
  | _, .nil, _ => rfl
  | path, .cons name c rest, hg => by
    simp only [goodEntries, Bool.and_eq_true] at hg
    obtain ⟨hc, hrest⟩ := hg
    cases c with
    | file =>
      simp only [walkEntries, isDirE]
      rw [walkEntries_good m h path rest hrest]
      simp [preorderEM, preorderM]
    | dir cs2 =>
      simp only [walkEntries, isDirE, walk]
      rw [walkEntries_good m h (joinTwo path name) cs2 hc,
        walkEntries_good m h path rest hrest]
      simp [preorderEM, preorderM]
    | badList cs2 => simp [goodNode] at hc
    | badStat => simp [goodNode] at hc
termination_by path cs => sizeOf cs

/-- C1: a default `walk()` call (`match=None`, `errors='strict'`) on a
directory tree yields a depth-first pre-order: every directory comes
before any of its descendants, and each yielded item is immediately
followed by its own subtree's items before any later sibling's. -/
theorem walk_yields_depth_first_preorder (path : Str) (cs : Entries)
    (hg : goodEntries cs = true) :
    walkCall (.policy "strict") matcherNull path (.dir cs)
      = (preorder path (.dir cs), none) := by
  unfold walkCall
  rw [show Handlers_resolve (.policy "strict") = .ok .strict from rfl]
  simp only [walk]
  rw [walkEntries_good matcherNull .strict path cs hg]
  rfl

/-- The tree `root/{sub/{leaf}, zed}` of the walk-order test. -/
def exampleTree : Node :=
  .dir (.cons (str "sub") (.dir (.cons (str "leaf") .file .nil))
    (.cons (str "zed") .file .nil))

/-- Witness: walking `root/{sub/{leaf}, zed}` yields `sub`, then
immediately `leaf`, before the sibling `zed`. -/
theorem walk_yields_depth_first_preorder_witness :
    goodEntries (.cons (str "sub") (.dir (.cons (str "leaf") .file .nil))
        (.cons (str "zed") .file .nil)) = true ∧
      walkCall (.policy "strict") matcherNull (str "root") exampleTree
        = ([str "root/sub", str "root/sub/leaf", str "root/zed"], none) :=
  ⟨by decide,
    (walk_yields_depth_first_preorder (str "root")
        (.cons (str "sub") (.dir (.cons (str "leaf") .file .nil))
          (.cons (str "zed") .file .nil)) (by decide)).trans (by decide)⟩

/-- `takeWhile` passes over a block that wholly satisfies the predicate. -/
theorem takeWhile_all_append (p : Char → Bool) :
    ∀ l1 l2 : Str, l1.all p = true →
      (l1 ++ l2).takeWhile p = l1 ++ l2.takeWhile p := by
  intro l1
  induction l1 with
  | nil => intro l2 _; rfl
  | cons c t ih =>
    intro l2 h
    simp only [List.all_cons, Bool.and_eq_true] at h
    simp only [List.cons_append, List.takeWhile_cons, h.1, ih l2 h.2]
    simp

/-- Appending a separator-free name after a block that is empty or ends
with a separator leaves exactly that name as the basename. -/
theorem basename_append (xs name : Str)
    (h2 : name.all (fun ch => ch ≠ '/') = true)
    (hx : xs = [] ∨ xs.getLast? = some '/') :
    posix_basename (xs ++ name) = name := by
  unfold posix_basename posix_split
  dsimp only
  rw [List.reverse_append]
  rw [takeWhile_all_append _ name.reverse xs.reverse (by simpa using h2)]
  have hxs : xs.reverse.takeWhile (fun c => c ≠ '/') = [] := by
    rcases hx with rfl | hx
    · rfl
    · have : xs.reverse.head? = some '/' := by
        rw [List.head?_reverse]
        exact hx
      cases hrev : xs.reverse with
      | nil => rfl
      | cons y ys =>
        rw [hrev] at this
        simp only [List.head?_cons, Option.some.injEq] at this
        subst this
        simp [List.takeWhile_cons]
  rw [hxs]
  simp

/-- The basename of `path / name` is `name` for a legal entry name. -/
theorem basename_joinTwo (path name : Str)
    (h1 : name ≠ []) (h2 : name.all (fun ch => ch ≠ '/') = true) :
    posix_basename (joinTwo path name) = name := by
  unfold joinTwo posix_join
  simp only [List.foldl_cons, List.foldl_nil]
  have hhead : name.head? ≠ some '/' := by
    cases name with
    | nil => simp
    | cons c t =>
      simp only [List.all_cons, Bool.and_eq_true] at h2
      simp only [List.head?_cons]
      intro hcontr
      have hc : c = '/' := by injection hcontr
      subst hc
      exact absurd h2.1 (by decide)
  rw [if_neg hhead]
  by_cases hp : path = [] ∨ path.getLast? = some '/'
  · rw [if_pos hp]
    exact basename_append path name h2 hp
  · rw [if_neg hp]
    have hassoc : path ++ '/' :: name = (path ++ ['/']) ++ name :=
      (List.append_assoc path ['/'] name).symm
    rw [hassoc]
    refine basename_append (path ++ ['/']) name h2 (Or.inr ?_)
    rw [List.getLast?_concat]

/-- Over legal entry names, the walk's match test against the child's
basename is the name-filtered pre-order. -/
theorem preorderEM_pattern (pp : Str → Bool) :
    (path : Str) → (cs : Entries) → namesOkEntries cs = true →
      preorderEM (matcherPattern pp) path cs = preorderByNameE pp path cs
  | _, .nil, _ => rfl
  | path, .cons name c rest, hn => by
    simp only [namesOkEntries, Bool.and_eq_true] at hn
    obtain ⟨⟨hname, hnode⟩, hrest⟩ := hn
    have hbase : matcherPattern pp (joinTwo path name) = pp name := by
      unfold matcherPattern
      rw [basename_joinTwo path name (by simpa using hname.1) hname.2]
    simp only [preorderEM, preorderByNameE, hbase]
    congr 1
    congr 1
    · cases c with
      | dir cs2 =>
        simp only [preorderM, preorderByName]
        exact preorderEM_pattern pp (joinTwo path name) cs2 hnode
      | file => rfl
      | badList cs2 => rfl
      | badStat => rfl
    · exact preorderEM_pattern pp path rest hrest
termination_by path cs => sizeOf cs

/-- C10: a `walk(match)` call descends into every child directory
whether or not the child's name matches: an unmatched directory is not
itself yielded, but its matching descendants still are — the walk over
a tree with legal names equals the name-filtered pre-order, which
recurses into every subtree. -/
theorem walk_match_still_descends (pp : Str → Bool) (path : Str) (cs : Entries)
    (hg : goodEntries cs = true) (hn : namesOkEntries cs = true) :
    walkCall (.policy "strict") (matcherPattern pp) path (.dir cs)
      = (preorderByName pp path (.dir cs), none) := by
  unfold walkCall
  rw [show Handlers_resolve (.policy "strict") = .ok .strict from rfl]
  simp only [walk]
  rw [walkEntries_good (matcherPattern pp) .strict path cs hg]
  simp only [preorderByName]
  rw [preorderEM_pattern pp path cs hn]

/-- The tree `root/{sub/{hit}}` for the match-descent witness. -/
def exampleTree2 : Node := .dir (.cons (str "sub") (.dir (.cons (str "hit") .file .nil)) .nil)

/-- Witness: with pattern `'hit'`, the unmatched directory `sub` is not
yielded but its matching child `root/sub/hit` is. -/
theorem walk_match_still_descends_witness :
    goodEntries (.cons (str "sub") (.dir (.cons (str "hit") .file .nil)) .nil) = true ∧
      namesOkEntries (.cons (str "sub") (.dir (.cons (str "hit") .file .nil)) .nil) = true ∧
      walkCall (.policy "strict") (matcherPattern (fun n => n = str "hit")) (str "root")
          exampleTree2
        = ([str "root/sub/hit"], none) :=
  ⟨by decide, by decide,
    (walk_match_still_descends (fun n => n = str "hit") (str "root")
        (.cons (str "sub") (.dir (.cons (str "hit") .file .nil)) .nil)
        (by decide) (by decide)).trans (by decide)⟩

/-- The walk loop over a concatenated listing splits into the two runs
whenever the first run raises nothing. -/
theorem walkEntries_app (m : Str → Bool) (h : Handler) :
    (path : Str) → (e1 e2 : Entries) → (walkEntries m h path e1).2 = none →
      walkEntries m h path (e1.app e2)
        = ((walkEntries m h path e1).1 ++ (walkEntries m h path e2).1,
            (walkEntries m h path e2).2)
  | path, .nil, e2, _ => by simp [Entries.app, walkEntries]
  | path, .cons name c rest, e2, h1 => by
    simp only [Entries.app, walkEntries] at h1 ⊢
    cases hd : isDirE c with
    | error e =>
      rw [hd] at h1
      cases hp : propagates h with
      | true => rw [hp] at h1; simp at h1
      | false =>
        rw [hp] at h1
        simp only [Bool.false_eq_true, if_false] at h1 ⊢
        rw [walkEntries_app m h path rest e2 h1]
        simp [List.append_assoc]
    | ok b =>
      rw [hd] at h1
      dsimp only at h1 ⊢
      cases b with
      | false =>
        simp only [Bool.false_eq_true, if_false] at h1 ⊢
        rw [walkEntries_app m h path rest e2 h1]
        simp [List.append_assoc]
      | true =>
        rw [if_pos rfl] at h1 ⊢
        cases hs : (walk m h (joinTwo path name) c).2 with
        | some e => rw [hs] at h1; simp at h1
        | none =>
          rw [hs] at h1
          dsimp only at h1 ⊢
          rw [walkEntries_app m h path rest e2 h1]
          simp [List.append_assoc]
termination_by path e1 => sizeOf e1

/-- C2: with `errors='ignore'`, a tree in which exactly one
subdirectory's listing raises (or whose descent check raises) is walked
without raising: every sibling before and after the failing entry and
every descendant of every other subtree is still yielded, in order; the
failing entry itself is yielded and only its own subtree is dropped. -/
theorem walk_ignore_survives_bad_subtree (path name : Str) (pre post : Entries) (bad : Node)
    (hpre : goodEntries pre = true) (hpost : goodEntries post = true)
    (hbad : (∃ cs, bad = Node.badList cs) ∨ bad = Node.badStat) :
    walkCall (.policy "ignore") matcherNull path (.dir (pre.app (.cons name bad post)))
      = (preorderEM matcherNull path pre
          ++ joinTwo path name :: preorderEM matcherNull path post, none) := by
  unfold walkCall
  rw [show Handlers_resolve (.policy "ignore") = .ok .ignore from rfl]
  simp only [walk]
  have h1 : (walkEntries matcherNull .ignore path pre).2 = none := by
    rw [walkEntries_good matcherNull .ignore path pre hpre]
  rw [walkEntries_app matcherNull .ignore path pre (.cons name bad post) h1]
  rw [walkEntries_good matcherNull .ignore path pre hpre]
  have hbadw : walkEntries matcherNull .ignore path (.cons name bad post)
      = (joinTwo path name :: preorderEM matcherNull path post, none) := by
    rcases hbad with ⟨cs, rfl⟩ | rfl <;>
      simp [walkEntries, walk, isDirE, propagates, matcherNull,
        walkEntries_good matcherNull .ignore path post hpost]
  rw [hbadw]

/-- Witness: walking `root/{a/{x}, bad, b}` where listing `bad` raises,
under `errors='ignore'`, yields `a`, `a/x`, `bad`, `b` and no error. -/
theorem walk_ignore_survives_bad_subtree_witness :
    goodEntries (.cons (str "a") (.dir (.cons (str "x") .file .nil)) .nil) = true ∧
      goodEntries (.cons (str "b") .file .nil) = true ∧
      walkCall (.policy "ignore") matcherNull (str "root")
          (.dir ((Entries.cons (str "a") (.dir (.cons (str "x") .file .nil)) .nil).app
            (.cons (str "bad") (.badList .nil) (.cons (str "b") .file .nil))))
        = ([str "root/a", str "root/a/x", str "root/bad", str "root/b"], none) :=
  ⟨by decide, by decide,
    (walk_ignore_survives_bad_subtree (str "root") (str "bad")
        (.cons (str "a") (.dir (.cons (str "x") .file .nil)) .nil)
        (.cons (str "b") .file .nil) (.badList .nil)
        (by decide) (by decide) (Or.inl ⟨.nil, rfl⟩)).trans (by decide)⟩

/-- Counterexample to C8 as stated: the string `'_resolve'` is not one
of `'strict'`, `'warn'`, `'ignore'`, yet `walk` does not fail with the
"invalid errors parameter" `ValueError` — the membership test
`param not in vars(cls)` passes because `_resolve` is an attribute of
the `Handlers` class, and the policy-table lookup then raises
`KeyError` instead. -/
theorem walk_errors_underscore_resolve_keyError :
    walkCall (.policy "_resolve") matcherNull (str "root") (.dir .nil)
        = ([], some .keyError)
      ∧ PyErr.keyError ≠ .valueError "invalid errors parameter" :=
  ⟨rfl, by decide⟩

/-- C8 (amended): every `errors=` string that is not an attribute name
of the `Handlers` class, and every non-callable non-string value, makes
`walk` fail with the `ValueError` "invalid errors parameter" before any
directory listing happens: the result is the same for every tree,
including one whose root listing would itself raise. -/
theorem walk_invalid_errors_rejected_before_listing (s : String)
    (hs : s ∉ handlersClassDict) (m : Str → Bool) (path : Str) (n : Node) :
    walkCall (.policy s) m path n = ([], some (.valueError "invalid errors parameter"))
      ∧ walkCall .nonCallable m path n
        = ([], some (.valueError "invalid errors parameter")) := by
  constructor
  · have hres : Handlers_resolve (.policy s) = .error (.valueError "invalid errors parameter") := by
      unfold Handlers_resolve
      dsimp only
      rw [if_neg hs]
    unfold walkCall
    rw [hres]
  · rfl

/-- Witness: `errors='raise'` is rejected before listing, even on a
tree whose root listing raises. -/
theorem walk_invalid_errors_rejected_before_listing_witness :
    "raise" ∉ handlersClassDict ∧
      (walkCall (.policy "raise") matcherNull (str "root") (.badList .nil)
          = ([], some (.valueError "invalid errors parameter"))
        ∧ walkCall .nonCallable matcherNull (str "root") (.badList .nil)
          = ([], some (.valueError "invalid errors parameter"))) :=
  ⟨by decide,
    walk_invalid_errors_rejected_before_listing "raise" (by decide) matcherNull
      (str "root") (.badList .nil)⟩

/-! ## Round-trip of `splitall` and `joinpath` (POSIX dialect) -/

/-- No two adjacent separator characters anywhere in the list. -/
def noDblSep : Str → Bool
  | c1 :: c2 :: t => !(c1 = '/' && c2 = '/') && noDblSep (c2 :: t)
  | _ => true

/-- A path is separator-normal when it has no doubled separator outside
its leading run of separators (`'//x'` and `'/x'` are normal,
`'a//b'` and `'a//'` are not). -/
def wfPath (p : Str) : Bool := noDblSep (p.dropWhile (fun c => c = '/'))

example : wfPath (str "/foo/bar/") = true := by decide
example : wfPath (str "//foo") = true := by decide
example : wfPath (str "foo//bar") = false := by decide

/-- The head of a `dropWhile` fails the predicate. -/
theorem dropWhile_head_not (pred : Char → Bool) :
    ∀ (l : Str) (x : Char) (xs : Str), l.dropWhile pred = x :: xs → pred x = false := by
  intro l
  induction l with
  | nil => intro x xs h; simp [List.dropWhile] at h
  | cons c t ih =>
    intro x xs h
    rw [List.dropWhile_cons] at h
    by_cases hc : pred c = true
    · rw [if_pos hc] at h
      exact ih x xs h
    · rw [if_neg hc] at h
      cases h
      exact Bool.not_eq_true _ ▸ hc

/-- `takeWhile` keeps only elements satisfying the predicate. -/
theorem takeWhile_all (pred : Char → Bool) :
    ∀ l : Str, (l.takeWhile pred).all pred = true := by
  intro l
  induction l with
  | nil => rfl
  | cons c t ih =>
    rw [List.takeWhile_cons]
    by_cases hc : pred c = true
    · rw [if_pos hc]
      simp [hc, ih]
    · rw [if_neg hc]
      rfl

/-- The raw head and the tail of `posixpath.split` reassemble the path. -/
theorem split_rawHead_append_tail (p : Str) :
    (p.reverse.dropWhile (fun c => c ≠ '/')).reverse
        ++ (p.reverse.takeWhile (fun c => c ≠ '/')).reverse = p := by
  rw [← List.reverse_append, List.takeWhile_append_dropWhile, List.reverse_reverse]

/-- Stripping trailing separators decomposes a separator-ended list into
the stripped part and a nonempty run of separators, and the stripped
part does not end with a separator. -/
theorem rstrip_decomp (x : Str) (hx : x.getLast? = some '/') :
    ∃ k, 1 ≤ k ∧ x = rstripSep x ++ List.replicate k '/'
      ∧ (rstripSep x = [] ∨ (rstripSep x).getLast? ≠ some '/') := by
  refine ⟨(x.reverse.takeWhile (fun c => c = '/')).length, ?_, ?_, ?_⟩
  · have hh : x.reverse.head? = some '/' := by rw [List.head?_reverse]; exact hx
    cases hrev : x.reverse with
    | nil => rw [hrev] at hh; simp at hh
    | cons c t =>
      rw [hrev] at hh
      simp only [List.head?_cons, Option.some.injEq] at hh
      subst hh
      simp [List.takeWhile_cons]
  · have hrepl : x.reverse.takeWhile (fun c => c = '/')
        = List.replicate (x.reverse.takeWhile (fun c => c = '/')).length '/' := by
      refine List.eq_replicate_of_mem (fun b hb => ?_)
      have hall := takeWhile_all (fun c => c = '/') x.reverse
      rw [List.all_eq_true] at hall
      exact of_decide_eq_true (hall b hb)
    have hrev2 : (x.reverse.takeWhile (fun c => c = '/')).reverse
        = List.replicate (x.reverse.takeWhile (fun c => c = '/')).length '/' := by
      conv_lhs => rw [hrepl]
      rw [List.reverse_replicate]
    conv_lhs => rw [← List.reverse_reverse x,
      ← List.takeWhile_append_dropWhile (p := fun c => c = '/') (l := x.reverse)]
    rw [List.reverse_append]
    unfold rstripSep
    rw [hrev2]
  · unfold rstripSep
    cases hD : x.reverse.dropWhile (fun c => c = '/') with
    | nil => exact Or.inl rfl
    | cons y ys =>
      right
      have hy := dropWhile_head_not (fun c => c = '/') x.reverse y ys hD
      simp only [decide_eq_false_iff_not] at hy
      rw [List.getLast?_reverse]
      simp [hy]

/-- Prepending to a list that already has a doubled separator keeps it. -/
theorem noDblSep_cons_false (a : Char) (l : Str) (hl : noDblSep l = false) (hne : l ≠ []) :
    noDblSep (a :: l) = false := by
  cases l with
  | nil => exact absurd rfl hne
  | cons b t =>
    show (!(a = '/' && b = '/') && noDblSep (b :: t)) = false
    rw [hl]
    exact Bool.and_false _

/-- A list with two adjacent separators anywhere is not separator-normal. -/
theorem noDblSep_middle_false :
    ∀ (xs rest : Str), noDblSep (xs ++ '/' :: '/' :: rest) = false := by
  intro xs
  induction xs with
  | nil =>
    intro rest
    show (!('/' = '/' && '/' = '/') && noDblSep ('/' :: rest)) = false
    simp
  | cons a t ih =>
    intro rest
    rw [List.cons_append]
    exact noDblSep_cons_false a _ (ih rest) (by simp)

/-- Separator-normality restricts to a left factor. -/
theorem noDblSep_append_left :
    ∀ (xs ys : Str), noDblSep (xs ++ ys) = true → noDblSep xs = true := by
  intro xs
  induction xs with
  | nil => intro ys _; rfl
  | cons a t ih =>
    intro ys h
    cases t with
    | nil => rfl
    | cons b t2 =>
      rw [List.cons_append, List.cons_append] at h
      simp only [noDblSep, Bool.and_eq_true] at h ⊢
      exact ⟨h.1, ih ys h.2⟩

/-- `dropWhile` of a `take` is a prefix of the `dropWhile`. -/
theorem dropWhile_take_isPrefix (pred : Char → Bool) :
    ∀ (p : Str) (n : Nat), ((p.take n).dropWhile pred) <+: (p.dropWhile pred) := by
  intro p
  induction p with
  | nil => intro n; simp
  | cons c t ih =>
    intro n
    cases n with
    | zero => simp
    | succ m =>
      rw [List.take_succ_cons, List.dropWhile_cons, List.dropWhile_cons]
      by_cases hc : pred c = true
      · rw [if_pos hc, if_pos hc]
        exact ih m
      · rw [if_neg hc, if_neg hc]
        exact List.cons_prefix_cons.mpr ⟨rfl, List.take_prefix m t⟩

/-- Separator-normality is inherited by prefixes. -/
theorem wfPath_isPrefix (p q : Str) (hq : q <+: p) (hwf : wfPath p = true) :
    wfPath q = true := by
  obtain hq' := List.prefix_iff_eq_take.mp hq
  obtain ⟨t2, ht2⟩ := dropWhile_take_isPrefix (fun c => c = '/') p q.length
  unfold wfPath at hwf ⊢
  rw [hq']
  exact noDblSep_append_left _ t2 (by rw [ht2]; exact hwf)

/-- Stripping trailing separators yields a prefix. -/
theorem rstripSep_isPrefix (x : Str) : rstripSep x <+: x := by
  unfold rstripSep
  have h1 : x.reverse.dropWhile (fun c => c = '/') <:+ x.reverse :=
    List.dropWhile_suffix _
  have h2 := List.reverse_prefix.mpr h1
  rwa [List.reverse_reverse] at h2

/-- Stripping at least one trailing separator shortens the list. -/
theorem rstripSep_length_lt (x : Str) (hx : x.getLast? = some '/') :
    (rstripSep x).length < x.length := by
  obtain ⟨k, hk1, hdecomp, _⟩ := rstrip_decomp x hx
  have hlen := congrArg List.length hdecomp
  simp only [List.length_append, List.length_replicate] at hlen
  omega

/-- A nonempty raw head of `posixpath.split` ends with the separator. -/
theorem rawHead_getLast (p : Str)
    (hne : (p.reverse.dropWhile (fun c => c ≠ '/')).reverse ≠ []) :
    ((p.reverse.dropWhile (fun c => c ≠ '/')).reverse).getLast? = some '/' := by
  rw [List.getLast?_reverse]
  cases hD : p.reverse.dropWhile (fun c => c ≠ '/') with
  | nil => exact absurd (by rw [hD]; rfl) hne
  | cons y ys =>
    have hy := dropWhile_head_not _ p.reverse y ys hD
    simp only [decide_eq_false_iff_not, not_not] at hy
    simp [hy]

/-- `posixpath.split` either fixes its argument or shortens it. -/
theorem posix_split_head_eq_or_lt (p : Str) :
    (posix_split p).1 = p ∨ (posix_split p).1.length < p.length := by
  have hrt := split_rawHead_append_tail p
  unfold posix_split
  dsimp only
  by_cases hany :
      ((p.reverse.dropWhile (fun c => c ≠ '/')).reverse.any (fun c => c ≠ '/')) = true
  · rw [if_pos hany]
    right
    have hne : (p.reverse.dropWhile (fun c => c ≠ '/')).reverse ≠ [] := by
      intro h0
      rw [h0] at hany
      simp at hany
    have hlast := rawHead_getLast p hne
    calc (rstripSep ((p.reverse.dropWhile (fun c => c ≠ '/')).reverse)).length
        < ((p.reverse.dropWhile (fun c => c ≠ '/')).reverse).length :=
          rstripSep_length_lt _ hlast
      _ ≤ p.length := by
          conv_rhs => rw [← hrt]
          simp [List.length_append]
  · rw [if_neg hany]
    by_cases htail : (p.reverse.takeWhile (fun c => c ≠ '/')).reverse = []
    · left
      rw [htail] at hrt
      simpa using hrt
    · right
      conv_rhs => rw [← hrt]
      rw [List.length_append]
      have hpos : 0 < ((p.reverse.takeWhile (fun c => c ≠ '/')).reverse).length :=
        List.length_pos.mpr htail
      omega

/-- When `dropWhile` leaves nothing, every element satisfied the predicate. -/
theorem all_of_dropWhile_nil (pred : Char → Bool) (x : Str)
    (h : x.dropWhile pred = []) : ∀ b ∈ x, pred b = true := by
  intro b hb
  have hx : x.takeWhile pred = x := by
    conv_rhs => rw [← List.takeWhile_append_dropWhile (p := pred) (l := x)]
    rw [h, List.append_nil]
  rw [← hx] at hb
  have hall2 := takeWhile_all pred x
  rw [List.all_eq_true] at hall2
  exact hall2 b hb

/-- A nonempty all-separator list ends with the separator. -/
theorem all_slash_getLast (x : Str) (hne : x ≠ []) (hall : ∀ b ∈ x, b = '/') :
    x.getLast? = some '/' := by
  rw [List.getLast?_eq_getLast x hne]
  exact congrArg some (hall _ (List.getLast_mem hne))

/-- In a separator-normal path, a separator run that follows a
non-separator character has length at most one. -/
theorem wf_k_le_one (p head tail : Str) (k : Nat)
    (hp : p = head ++ (List.replicate k '/' ++ tail))
    (hhead_ne : head ≠ []) (hlast : head.getLast? ≠ some '/')
    (hwf : wfPath p = true) : k ≤ 1 := by
  by_contra hk
  push_neg at hk
  obtain ⟨k2, rfl⟩ : ∃ k2, k = k2 + 2 := ⟨k - 2, by omega⟩
  have hdne : head.dropWhile (fun c => c = '/') ≠ [] := by
    intro h0
    refine hlast (all_slash_getLast head hhead_ne (fun b hb => ?_))
    exact of_decide_eq_true (all_of_dropWhile_nil _ head h0 b hb)
  have hdw : p.dropWhile (fun c => c = '/')
      = (head.dropWhile (fun c => c = '/')) ++ (List.replicate (k2 + 2) '/' ++ tail) := by
    rw [hp, List.dropWhile_append]
    rw [if_neg (by simpa [List.isEmpty_iff] using hdne)]
  have hrepl : List.replicate (k2 + 2) '/' ++ tail
      = '/' :: '/' :: (List.replicate k2 '/' ++ tail) := by
    simp [List.replicate_succ]
  unfold wfPath at hwf
  rw [hdw, hrepl, noDblSep_middle_false] at hwf
  exact absurd hwf (by decide)

/-- Core reconstruction: when `posixpath.split` changes a
separator-normal path, one join step reassembles it exactly. -/
theorem split_reconstruct (p : Str) (hwf : wfPath p = true)
    (hne : (posix_split p).1 ≠ p) :
    joinStep (posix_split p).1 (posix_split p).2 = p := by
  have hrt := split_rawHead_append_tail p
  have htailq : ∀ b ∈ (p.reverse.takeWhile (fun c => c ≠ '/')).reverse, ¬(b = '/') := by
    intro b hb
    rw [List.mem_reverse] at hb
    have hall2 := takeWhile_all (fun c => c ≠ '/') p.reverse
    rw [List.all_eq_true] at hall2
    exact of_decide_eq_true (hall2 b hb)
  have htailhead : ((p.reverse.takeWhile (fun c => c ≠ '/')).reverse).head? ≠ some '/' := by
    cases hT : (p.reverse.takeWhile (fun c => c ≠ '/')).reverse with
    | nil => simp
    | cons c t =>
      simp only [List.head?_cons]
      intro hc
      have hc' : c = '/' := by injection hc
      exact htailq c (by rw [hT]; exact List.mem_cons_self c t) hc'
  unfold posix_split at hne ⊢
  dsimp only at hne ⊢
  by_cases hany :
      ((p.reverse.dropWhile (fun c => c ≠ '/')).reverse.any (fun c => c ≠ '/')) = true
  · rw [if_pos hany] at hne ⊢
    have hRne : (p.reverse.dropWhile (fun c => c ≠ '/')).reverse ≠ [] := by
      intro h0
      rw [h0] at hany
      simp at hany
    have hlastR := rawHead_getLast p hRne
    obtain ⟨k, hk1, hdecomp, hstripped⟩ := rstrip_decomp _ hlastR
    have hheadne : rstripSep ((p.reverse.dropWhile (fun c => c ≠ '/')).reverse) ≠ [] := by
      intro h0
      rw [h0, List.nil_append] at hdecomp
      rw [hdecomp] at hany
      simp only [List.any_eq_true] at hany
      obtain ⟨x, hx, hxne⟩ := hany
      exact absurd (List.eq_of_mem_replicate hx) (by simpa using hxne)
    have hlasthead :
        (rstripSep ((p.reverse.dropWhile (fun c => c ≠ '/')).reverse)).getLast? ≠ some '/' := by
      rcases hstripped with h0 | h1
      · exact absurd h0 hheadne
      · exact h1
    have hp2 : p = rstripSep ((p.reverse.dropWhile (fun c => c ≠ '/')).reverse)
        ++ (List.replicate k '/' ++ (p.reverse.takeWhile (fun c => c ≠ '/')).reverse) := by
      conv_lhs => rw [← hrt]
      rw [← List.append_assoc, ← hdecomp]
    have hk : k ≤ 1 := wf_k_le_one p _ _ k hp2 hheadne hlasthead hwf
    have hk1' : k = 1 := by omega
    subst hk1'
    unfold joinStep
    rw [if_neg htailhead, if_neg (by push_neg; exact ⟨hheadne, hlasthead⟩)]
    conv_rhs => rw [hp2]
    rfl
  · rw [if_neg hany] at hne ⊢
    have hallR : ∀ b ∈ (p.reverse.dropWhile (fun c => c ≠ '/')).reverse, b = '/' := by
      intro b hb
      by_contra hbne
      exact hany (List.any_eq_true.mpr ⟨b, hb, by simpa using hbne⟩)
    unfold joinStep
    rw [if_neg htailhead]
    by_cases hR : (p.reverse.dropWhile (fun c => c ≠ '/')).reverse = []
    · rw [if_pos (Or.inl hR), hR]
      rw [hR] at hrt
      exact hrt
    · rw [if_pos (Or.inr (all_slash_getLast _ hR hallR))]
      exact hrt

/-- Separator-normality is preserved by the head of `posixpath.split`. -/
theorem wfPath_split_head (p : Str) (hwf : wfPath p = true) :
    wfPath (posix_split p).1 = true := by
  refine wfPath_isPrefix p _ ?_ hwf
  have hrt := split_rawHead_append_tail p
  have hRpre : (p.reverse.dropWhile (fun c => c ≠ '/')).reverse <+: p := ⟨_, hrt⟩
  unfold posix_split
  dsimp only
  by_cases hany :
      ((p.reverse.dropWhile (fun c => c ≠ '/')).reverse.any (fun c => c ≠ '/')) = true
  · rw [if_pos hany]
    exact (rstripSep_isPrefix _).trans hRpre
  · rw [if_neg hany]
    exact hRpre

/-- Any sufficient fuel computes the same `_parts_iter` run (POSIX). -/
theorem parts_iter_posix_fuel :
    ∀ (fuel : Nat) (p : Str), p.length < fuel →
      parts_iterM posixModule fuel p = parts_iterM posixModule (p.length + 1) p := by
  intro fuel
  induction fuel using Nat.strong_induction_on with
  | _ fuel ih =>
    intro p hp
    cases fuel with
    | zero => omega
    | succ f =>
      rw [parts_iterM, parts_iterM]
      by_cases h1 : p = curdir ∨ p = pardir
      · rw [if_pos h1, if_pos h1]
      · rw [if_neg h1, if_neg h1]
        dsimp only
        by_cases h2 : (posixModule.split p).1 = p
        · rw [if_pos h2, if_pos h2]
        · rw [if_neg h2, if_neg h2]
          have hlt : (posixModule.split p).1.length < p.length := by
            rcases posix_split_head_eq_or_lt p with he | hl
            · exact absurd he h2
            · exact hl
          congr 1
          rw [ih f (by omega) _ (by omega), ih p.length (by omega) _ hlt]

/-- One unfolding of `splitall` in the recursive case. -/
theorem splitall_step (p : Str) (h1 : ¬(p = curdir ∨ p = pardir))
    (h2 : (posix_split p).1 ≠ p) :
    splitall p = splitall (posix_split p).1 ++ [(posix_split p).2] := by
  unfold splitall splitallM
  rw [parts_iterM]
  rw [if_neg h1]
  dsimp only
  rw [show posixModule.split = posix_split from rfl]
  rw [if_neg h2]
  rw [List.reverse_cons]
  congr 1
  have hlt : (posix_split p).1.length < p.length := by
    rcases posix_split_head_eq_or_lt p with he | hl
    · exact absurd he h2
    · exact hl
  exact congrArg List.reverse (parts_iter_posix_fuel p.length _ hlt)

/-- `splitall` in the terminating cases. -/
theorem splitall_base (p : Str)
    (h : (p = curdir ∨ p = pardir) ∨ (posix_split p).1 = p) :
    splitall p = [p] := by
  unfold splitall splitallM
  rw [parts_iterM]
  rcases h with h1 | h2
  · rw [if_pos h1]
    rfl
  · by_cases h1 : p = curdir ∨ p = pardir
    · rw [if_pos h1]
      rfl
    · rw [if_neg h1]
      dsimp only
      rw [show posixModule.split = posix_split from rfl]
      rw [if_pos h2]
      rfl

/-- `joinpath` over a snoc is one join step after the joined front. -/
theorem joinpath_concat (f : Str) (r : List Str) (t : Str) :
    joinpath (f :: (r ++ [t])) = some (joinStep (posix_join f r) t) := by
  show some (posix_join f (r ++ [t])) = some (joinStep (posix_join f r) t)
  unfold posix_join joinStep
  rw [List.foldl_append]
  rfl

/-- C5 (amended): for every separator-normal path `p` (no doubled
separator outside the leading run), `joinpath(*p.splitall())`
reconstructs `p` exactly. -/
theorem splitall_joinpath_round_trip : (p : Str) → wfPath p = true →
    joinpath (splitall p) = some p
  | p, hwf => by
    by_cases hbase : (p = curdir ∨ p = pardir) ∨ (posix_split p).1 = p
    · rw [splitall_base p hbase]
      rfl
    · have h1 : ¬(p = curdir ∨ p = pardir) := (not_or.mp hbase).1
      have h2 : (posix_split p).1 ≠ p := (not_or.mp hbase).2
      rw [splitall_step p h1 h2]
      have hlt : (posix_split p).1.length < p.length := by
        rcases posix_split_head_eq_or_lt p with he | hl
        · exact absurd he h2
        · exact hl
      have IH := splitall_joinpath_round_trip (posix_split p).1 (wfPath_split_head p hwf)
      cases hsp : splitall (posix_split p).1 with
      | nil => exact absurd hsp (splitallM_ne_nil posixModule _)
      | cons f r =>
        rw [hsp] at IH
        have hj : posix_join f r = (posix_split p).1 :=
          Option.some.inj (show some (posix_join f r) = some ((posix_split p).1) from IH)
        show joinpath (f :: (r ++ [(posix_split p).2])) = some p
        rw [joinpath_concat f r (posix_split p).2, hj,
          split_reconstruct p hwf h2]
termination_by p => p.length

/-- Counterexample to C5 as stated: `'foo//bar'` splits into
`['', 'foo', 'bar']` (the split head is stripped of trailing
separators), and joining gives `'foo/bar'`, not the original. -/
theorem splitall_joinpath_counterexample :
    joinpath (splitall (str "foo//bar")) = some (str "foo/bar")
      ∧ str "foo/bar" ≠ str "foo//bar" :=
  ⟨by decide, by decide⟩

/-- Witness: the amended round trip at `/usr/local/lib`. -/
theorem splitall_joinpath_round_trip_witness :
    wfPath (str "/usr/local/lib") = true ∧
      joinpath (splitall (str "/usr/local/lib")) = some (str "/usr/local/lib") :=
  ⟨by decide, splitall_joinpath_round_trip (str "/usr/local/lib") (by decide)⟩
